import Mathlib

/-!
Verification of the credit_approval data-exploration dashboard.

This file gives a shallow embedding, in Lean 4, of the data model and the
operations of the repository (src/utils.py, src/processing.py, src/app.py,
src/statisticss.py) and proves or refutes the frozen claims about them.

Conventions of the embedding:
* a pandas cell is `Cell` (missing marker, numeric value, or text);
* numeric values are modelled as rationals (`ℚ`);
* a DataFrame is `Table`: a row-label index plus ordered named columns,
  each column carrying its dtype;
* Python strings are Lean `String`s, manipulated through their `List Char`
  code-point representation so that every definition evaluates by kernel
  reduction (Python and numpy compare strings by code point, which is
  exactly the lexicographic order on `List Char` used here).
-/

/-- A cell of a table: a missing marker (pandas `NaN`), a numeric value, or
a text value. -/
inductive Cell where
  | na : Cell
  | num : ℚ → Cell
  | str : String → Cell
deriving DecidableEq, Repr

/-- The dtype of a pandas column, as far as the classifier cares:
`numericD` covers the `np.number` dtypes, `objectD` and `categoryD` are the
dtypes selected by `select_dtypes(include=['object', 'category'])`, `boolD`
is any remaining dtype (selected by neither). -/
inductive Dtype where
  | numericD : Dtype
  | objectD : Dtype
  | categoryD : Dtype
  | boolD : Dtype
deriving DecidableEq, Repr

/-- A named pandas column: its dtype and its cells in row order. -/
structure Col where
  dtype : Dtype
  cells : List Cell
deriving DecidableEq, Repr

/-- A pandas DataFrame: the row-label index and the ordered, named columns.
`index` holds the row labels (a freshly loaded frame has labels `0..n-1`;
row deletions keep the surviving labels, leaving gaps). -/
structure Table where
  index : List Int
  cols : List (String × Col)
deriving DecidableEq, Repr

/-- Number of rows of a table (the length of its index). -/
def Table.nRows (t : Table) : Nat := t.index.length

/-- `df.empty`: a DataFrame is empty when one of its axes has length 0. -/
def Table.isEmpty (t : Table) : Bool := t.index.isEmpty || t.cols.isEmpty

/-! ### Character-list helpers

Python string operations used by the source (`split`, `strip`, `int`,
`float`, `in`) are modelled on the `List Char` representation. -/

/-- Split a character list at every occurrence of the separator `sep`,
like Python `s.split(sep)` for a one-character separator: `n` separators
yield `n+1` (possibly empty) pieces. -/
def splitOnChar (sep : Char) : List Char → List (List Char)
  | [] => [[]]
  | c :: rest =>
    let r := splitOnChar sep rest
    if c = sep then [] :: r
    else match r with
      | [] => [[c]]
      | p :: ps => (c :: p) :: ps

/-- Python `s.strip()`: remove leading and trailing whitespace. -/
def stripChars (l : List Char) : List Char :=
  ((l.dropWhile Char.isWhitespace).reverse.dropWhile Char.isWhitespace).reverse

/-- The numeric value of a list of decimal digit characters. -/
def digitsToNat (l : List Char) : Nat :=
  l.foldl (fun a c => 10 * a + (c.toNat - 48)) 0

/-- Model of Python `int(token)` on an already-stripped token: an optional
sign followed by one or more decimal digits; anything else raises
`ValueError`, modelled as `none`. -/
def pyInt? (l : List Char) : Option Int :=
  let core : List Char → Option Nat := fun ds =>
    if ds ≠ [] ∧ ds.all Char.isDigit then some (digitsToNat ds) else none
  match l with
  | [] => none
  | c :: rest =>
    if c = '-' then (core rest).map (fun n => -(n : Int))
    else if c = '+' then (core rest).map (fun n => (n : Int))
    else (core l).map (fun n => (n : Int))

/-! ### `load_data` (src/utils.py lines 6-22)

`pd.read_csv(..., na_values=[...], keep_default_na=True)` treats a field as
a missing value exactly when its text is one of the explicitly listed
tokens or one of pandas' built-in default NA strings. -/

/-- The explicit `na_values` list passed to `pd.read_csv` in `load_data`. -/
def loadNaValues : List String :=
  ["?", "NA", "N/A", "null", "NULL", "", " ", "nan", "NaN"]

/-- The pandas built-in default NA strings (`STR_NA_VALUES`), active
because `load_data` passes `keep_default_na=True`. -/
def pandasDefaultNaValues : List String :=
  ["", "#N/A", "#N/A N/A", "#NA", "-1.#IND", "-1.#QNAN", "-NaN", "-nan",
   "1.#IND", "1.#QNAN", "<NA>", "N/A", "NA", "NULL", "NaN", "None",
   "n/a", "nan", "null"]

/-- Whether `load_data`'s CSV parse treats the field text `s` as a
missing-value marker. -/
def isMissingToken (s : String) : Bool :=
  s ∈ loadNaValues || s ∈ pandasDefaultNaValues

/-- How `load_data` parses one CSV field before dtype conversion: a field
whose text is a missing-value marker becomes a missing cell, any other
field stays literal text. -/
def loadField (s : String) : Cell :=
  if isMissingToken s then Cell.na else Cell.str s

/-! ### Claim C3 -/

/-- C3 (counterexample): the claim says `load` treats the literal token
`missing` as a missing-value marker, but the `na_values` list in
`load_data` does not contain `missing` (only the later missing-data
normalization step in `_handle_missing_data` does): the field `missing`
is parsed as literal text. -/
theorem C3_counterexample :
    loadField "missing" = Cell.str "missing" ∧ isMissingToken "missing" = false := by
  constructor
  · rfl
  · rfl

/-- C3 (amended): `load` treats the literal tokens `?`, `NA`, `N/A`,
`null`, `NULL`, the empty string, the single-space string, `nan` and
`NaN` (together with pandas' built-in default NA strings) as
missing-value markers; the token `missing` is not a marker and is parsed
as literal text, and neither is a whitespace-only string other than the
single space. -/
theorem C3_amended :
    loadField "?" = Cell.na ∧ loadField "NA" = Cell.na ∧
    loadField "N/A" = Cell.na ∧ loadField "null" = Cell.na ∧
    loadField "NULL" = Cell.na ∧ loadField "" = Cell.na ∧
    loadField " " = Cell.na ∧ loadField "nan" = Cell.na ∧
    loadField "NaN" = Cell.na ∧
    loadField "missing" = Cell.str "missing" ∧
    loadField "  " = Cell.str "  " := by
  refine ⟨rfl, rfl, rfl, rfl, rfl, rfl, rfl, rfl, rfl, rfl, rfl⟩

/-! ### `parse_indices` (src/utils.py lines 61-95)

The source splits the input on commas, strips each part, and for each part:
a part containing `-` is a range `start-end` (parsed with
`start, end = map(int, part.split('-'))`, clamped to `[0, max_index-1]`);
any other part is a single index, kept only if `0 <= idx < max_index`.
A part that fails to parse only produces an `st.error` message and is
skipped; the remaining parts still contribute. The result is
`sorted(list(set(indices)))`. -/

/-- The integer range `[s, s+1, ..., e]` (empty when `e < s`), i.e. Python
`range(s, e + 1)` collected into a list. -/
def intRange (s e : Int) : List Int :=
  (List.range (e + 1 - s).toNat).map (fun k => s + Int.ofNat k)

/-- Parse one comma-separated, already-stripped part of the index
expression, returning the indices it contributes (possibly none, when the
part is malformed or out of range). -/
def parsePart (maxIndex : Nat) (part : List Char) : List Int :=
  if part.contains '-' then
    match splitOnChar '-' part with
    | [a, b] =>
      match pyInt? a, pyInt? b with
      | some s, some e => intRange (max 0 s) (min ((maxIndex : Int) - 1) e)
      | _, _ => []
    | _ => []
  else
    match pyInt? part with
    | some i => if 0 ≤ i ∧ i < (maxIndex : Int) then [i] else []
    | none => []

/-- Ascending insertion sort on integers (the value of Python
`sorted(...)`). -/
def sortInts (l : List Int) : List Int :=
  List.insertionSort (· ≤ ·) l

/-- `parse_indices(indices_str, max_index)`: parse a human-entered
0-based index expression into a sorted deduplicated list of valid
indices. Malformed parts are skipped (they only emit an error message);
only the valid parts contribute. -/
def parse_indices (s : String) (maxIndex : Nat) : List Int :=
  if stripChars s.data = [] then []
  else
    sortInts ((((splitOnChar ',' s.data).map stripChars).flatMap
      (parsePart maxIndex)).dedup)

/-! ### Row extraction (src/processing.py lines 93-107)

With a non-empty parse result, "Usuń wybrane" keeps the complement
positions (`df.iloc[remaining_indices]`) and "Zachowaj tylko wybrane"
keeps exactly the parsed positions (`df.iloc[indices]`); with an empty
parse result the frame is returned unchanged (the `if indices:` guard). -/

/-- Row extraction, keep-selected action, on the list of rows of the
current table. -/
def extractRowsKeep (input : String) (rows : List α) : List α :=
  let idxs := parse_indices input rows.length
  if idxs = [] then rows
  else idxs.filterMap (fun i => rows.get? i.toNat)

/-- Row extraction, drop-selected action, on the list of rows of the
current table. -/
def extractRowsDrop (input : String) (rows : List α) : List α :=
  let idxs := parse_indices input rows.length
  if idxs = [] then rows
  else ((List.range rows.length).filter
    (fun (i : Nat) => ¬ ((i : Int) ∈ idxs))).filterMap (fun i => rows.get? i)

/-! ### Properties of `parse_indices` -/

/-- Members of `intRange s e` lie between the bounds. -/
lemma mem_intRange {s e x : Int} (h : x ∈ intRange s e) : s ≤ x ∧ x ≤ e := by
  simp only [intRange, List.mem_map, List.mem_range] at h
  obtain ⟨k, hk, rfl⟩ := h
  simp only [Int.ofNat_eq_coe]
  omega

/-- Every index contributed by one part of the expression is valid:
nonnegative and below `maxIndex`. -/
lemma parsePart_valid {maxIndex : Nat} {part : List Char} {x : Int}
    (h : x ∈ parsePart maxIndex part) : 0 ≤ x ∧ x < (maxIndex : Int) := by
  unfold parsePart at h
  by_cases hc : part.contains '-'
  · simp only [hc, if_true] at h
    rcases hs : splitOnChar '-' part with _ | ⟨a, _ | ⟨b, _ | _⟩⟩ <;>
      simp [hs] at h <;> try exact h.elim
    · rcases ha : pyInt? a with _ | s <;> rcases hb : pyInt? b with _ | e <;>
        simp [ha, hb] at h
      have := mem_intRange h
      omega
  · simp only [hc, if_false] at h
    rcases hp : pyInt? part with _ | i <;> simp [hp] at h
    rcases h with ⟨⟨h1, h2⟩, rfl⟩
    exact ⟨h1, h2⟩

/-- Every index returned by `parse_indices` is valid: nonnegative and below
`maxIndex`. -/
lemma parse_indices_valid {s : String} {maxIndex : Nat} {x : Int}
    (h : x ∈ parse_indices s maxIndex) : 0 ≤ x ∧ x < (maxIndex : Int) := by
  unfold parse_indices at h
  split at h
  · simp at h
  · have h' := ((List.perm_insertionSort _ _).mem_iff).mp h
    rw [List.mem_dedup, List.mem_flatMap] at h'
    obtain ⟨part, _, hx⟩ := h'
    exact parsePart_valid hx

/-- `parse_indices` returns a deduplicated list. -/
lemma parse_indices_nodup (s : String) (maxIndex : Nat) :
    (parse_indices s maxIndex).Nodup := by
  unfold parse_indices
  split
  · exact List.nodup_nil
  · exact ((List.perm_insertionSort _ _).nodup_iff).mpr (List.nodup_dedup _)

/-- Looking up a list of valid positions with `get?` loses nothing. -/
lemma length_filterMap_get? {rows : List α} {l : List Nat}
    (h : ∀ i ∈ l, i < rows.length) :
    (l.filterMap (fun i => rows.get? i)).length = l.length := by
  induction l with
  | nil => rfl
  | cons i l ih =>
    have hi : i < rows.length := h i (List.mem_cons_self i l)
    rw [List.filterMap_cons, List.get?_eq_get hi]
    simp only [List.length_cons]
    rw [ih (fun j hj => h j (List.mem_cons_of_mem i hj))]

/-- Looking up a list of valid integer positions (`df.iloc[indices]`)
loses nothing. -/
lemma length_filterMap_get?_int {rows : List α} {l : List Int}
    (h : ∀ x ∈ l, 0 ≤ x ∧ x < (rows.length : Int)) :
    (l.filterMap (fun i => rows.get? i.toNat)).length = l.length := by
  induction l with
  | nil => rfl
  | cons i l ih =>
    have hi := h i (List.mem_cons_self i l)
    have hi' : i.toNat < rows.length := by omega
    rw [List.filterMap_cons, List.get?_eq_get hi']
    simp only [List.length_cons]
    rw [ih (fun j hj => h j (List.mem_cons_of_mem i hj))]

/-- The positions of `range n` that lie in a deduplicated list of valid
indices are exactly as many as the indices. -/
lemma length_filter_mem_eq {idxs : List Int} {n : Nat}
    (hnd : idxs.Nodup) (hv : ∀ x ∈ idxs, 0 ≤ x ∧ x < (n : Int)) :
    ((List.range n).filter (fun (i : Nat) => (i : Int) ∈ idxs)).length
      = idxs.length := by
  have hperm : ((List.range n).filter (fun (i : Nat) => (i : Int) ∈ idxs)).Perm
      (idxs.map Int.toNat) := by
    rw [List.perm_ext_iff_of_nodup]
    · intro a
      simp only [List.mem_filter, List.mem_range, List.mem_map, decide_eq_true_eq]
      constructor
      · rintro ⟨_, ha⟩
        exact ⟨(a : Int), ha, Int.toNat_natCast a⟩
      · rintro ⟨x, hx, rfl⟩
        have := hv x hx
        constructor
        · omega
        · rwa [Int.toNat_of_nonneg this.1]
    · exact (List.nodup_range n).filter _
    · refine hnd.map_on ?_
      intro x hx y hy hxy
      have h1 := hv x hx
      have h2 := hv y hy
      omega
  rw [hperm.length_eq, List.length_map]

/-! ### Claim C2 -/

/-- C2 (counterexample): the claim says a partially invalid row-index
expression is rejected with the table unchanged, but on the 3-row table
`["r0", "r1", "r2"]` the expression `0,xyz` (valid fragment `0`, malformed
fragment `xyz`) is partially applied: the keep action returns just row 0,
not the unchanged table. -/
theorem C2_counterexample :
    parse_indices "0,xyz" 3 = [0] ∧
    extractRowsKeep "0,xyz" ["r0", "r1", "r2"] = ["r0"] ∧
    extractRowsKeep "0,xyz" ["r0", "r1", "r2"] ≠ ["r0", "r1", "r2"] := by
  refine ⟨by decide, by decide, by decide⟩

/-- C2 (amended): the row-extraction operation is not atomic on partially
malformed expressions. Malformed fragments are skipped and the valid
fragments are applied: the table is returned unchanged exactly when the
expression yields no valid index at all; otherwise keep returns one row
per parsed valid index and drop removes exactly the parsed valid indices
(all of which are in range). -/
theorem C2_amended (input : String) (rows : List α) :
    (∀ x ∈ parse_indices input rows.length,
      0 ≤ x ∧ x < (rows.length : Int)) ∧
    (parse_indices input rows.length = [] →
      extractRowsKeep input rows = rows ∧ extractRowsDrop input rows = rows) ∧
    (parse_indices input rows.length ≠ [] →
      (extractRowsKeep input rows).length
        = (parse_indices input rows.length).length) ∧
    (extractRowsDrop input rows).length
      = rows.length - (parse_indices input rows.length).length := by
  refine ⟨fun x hx => parse_indices_valid hx, ?_, ?_, ?_⟩
  · intro h
    unfold extractRowsKeep extractRowsDrop
    rw [h]
    exact ⟨if_pos rfl, if_pos rfl⟩
  · intro h
    unfold extractRowsKeep
    rw [if_neg h]
    exact length_filterMap_get?_int (fun x hx => parse_indices_valid hx)
  · unfold extractRowsDrop
    by_cases h : parse_indices input rows.length = []
    · rw [if_pos h, h, List.length_nil, Nat.sub_zero]
    · rw [if_neg h]
      set idxs := parse_indices input rows.length with hidxs
      set n := rows.length with hn
      have hval : ∀ i ∈ (List.range n).filter
          (fun (i : Nat) => ¬ ((i : Int) ∈ idxs)), i < rows.length := by
        intro i hi
        exact List.mem_range.mp (List.mem_filter.mp hi).1
      rw [length_filterMap_get? hval]
      have hsum := (List.filter_append_perm
        (fun (i : Nat) => decide ((i : Int) ∈ idxs)) (List.range n)).length_eq
      rw [List.length_append, List.length_range] at hsum
      have hmem := length_filter_mem_eq (parse_indices_nodup input rows.length)
        (fun x hx => parse_indices_valid hx)
      have hbools : ((List.range n).filter (fun (i : Nat) => ¬ ((i : Int) ∈ idxs)))
          = (List.range n).filter
            (fun (i : Nat) => !(decide ((i : Int) ∈ idxs))) := by
        simp only [decide_not]
      rw [hbools]
      rw [← hidxs, ← hn] at hmem
      omega

/-- C2 (witness): the amended theorem evaluated at concrete inputs — a
fully malformed expression leaves the table unchanged, and a valid
expression with two indices keeps exactly two rows. -/
theorem C2_witness :
    (extractRowsKeep "abc" ["r0", "r1"] = ["r0", "r1"] ∧
     extractRowsDrop "abc" ["r0", "r1"] = ["r0", "r1"]) ∧
    (extractRowsKeep "0,2" ["r0", "r1", "r2"]).length = 2 := by
  constructor
  · exact (C2_amended "abc" ["r0", "r1"]).2.1 (by decide)
  · rw [(C2_amended "0,2" ["r0", "r1", "r2"]).2.2.1 (by decide)]
    decide

/-! ### Label encoding (src/processing.py lines 498-503)

`_apply_label_encoding` replaces each selected column by
`LabelEncoder().fit_transform(df[col])`. sklearn's `LabelEncoder.fit`
computes `classes_ = np.unique(values)` — the distinct values in
**sorted** order — and `transform` maps each value to its position in
`classes_`. numpy compares strings by code point, modelled here by the
lexicographic order `lexLt` on `List Char`. -/

/-- Strict lexicographic (code-point) comparison of two character lists,
the string order used by Python and numpy. -/
def lexLt : List Char → List Char → Bool
  | _, [] => false
  | [], _ :: _ => true
  | a :: as, b :: bs => if a < b then true else if b < a then false else lexLt as bs

/-- Strict code-point order on strings. -/
def pyStrLt (a b : String) : Bool := lexLt a.data b.data

/-- Non-strict code-point order on strings (`a <= b` iff not `b < a`). -/
def pyStrLe (a b : String) : Bool := !(pyStrLt b a)

/-- The non-strict string order as a relation, for sorting. -/
def strRel (a b : String) : Prop := pyStrLe a b = true

instance : DecidableRel strRel := fun a b => instDecidableEqBool (pyStrLe a b) true

lemma string_data_ext {a b : String} (h : a.data = b.data) : a = b := by
  cases a
  cases b
  exact congrArg String.mk h

lemma lexLt_irrefl (l : List Char) : lexLt l l = false := by
  induction l with
  | nil => rfl
  | cons a as ih => simp [lexLt, ih]

lemma lexLt_asymm : ∀ {l₁ l₂ : List Char},
    lexLt l₁ l₂ = true → lexLt l₂ l₁ = false := by
  intro l₁
  induction l₁ with
  | nil =>
    intro l₂ h
    cases l₂ with
    | nil => exact absurd h (by simp [lexLt])
    | cons b bs => rfl
  | cons a as ih =>
    intro l₂ h
    cases l₂ with
    | nil => exact absurd h (by simp [lexLt])
    | cons b bs =>
      by_cases hab : a < b
      · simp [lexLt, not_lt_of_gt hab, hab]
      · by_cases hba : b < a
        · simp [lexLt, hab, hba] at h
        · have h' : lexLt as bs = true := by simpa [lexLt, hab, hba] using h
          simpa [lexLt, hab, hba] using ih h'

lemma lexLt_trans : ∀ {l₁ l₂ l₃ : List Char},
    lexLt l₁ l₂ = true → lexLt l₂ l₃ = true → lexLt l₁ l₃ = true := by
  intro l₁
  induction l₁ with
  | nil =>
    intro l₂ l₃ h₁ h₂
    cases l₃ with
    | nil =>
      cases l₂ with
      | nil => exact h₁
      | cons b bs => exact absurd h₂ (by simp [lexLt])
    | cons c cs => simp [lexLt]
  | cons a as ih =>
    intro l₂ l₃ h₁ h₂
    cases l₂ with
    | nil => exact absurd h₁ (by simp [lexLt])
    | cons b bs =>
      cases l₃ with
      | nil => exact absurd h₂ (by simp [lexLt])
      | cons c cs =>
        by_cases hab : a < b
        · by_cases hbc : b < c
          · simp [lexLt, lt_trans hab hbc]
          · by_cases hcb : c < b
            · simp [lexLt, hab, hbc, hcb] at h₂
            · have hbceq : b = c := le_antisymm (le_of_not_lt hcb) (le_of_not_lt hbc)
              subst hbceq
              simp [lexLt, hab]
        · by_cases hba : b < a
          · simp [lexLt, hab, hba] at h₁
          · have habeq : a = b := le_antisymm (le_of_not_lt hba) (le_of_not_lt hab)
            subst habeq
            have h₁' : lexLt as bs = true := by simpa [lexLt, lt_irrefl] using h₁
            by_cases hac : a < c
            · simp [lexLt, hac]
            · by_cases hca : c < a
              · simp [lexLt, hac, hca] at h₂
              · have haceq : a = c := le_antisymm (le_of_not_lt hca) (le_of_not_lt hac)
                subst haceq
                have h₂' : lexLt bs cs = true := by simpa [lexLt, lt_irrefl] using h₂
                simpa [lexLt, lt_irrefl] using ih h₁' h₂'

lemma lexLt_connex : ∀ {l₁ l₂ : List Char},
    lexLt l₁ l₂ = false → lexLt l₂ l₁ = false → l₁ = l₂ := by
  intro l₁
  induction l₁ with
  | nil =>
    intro l₂ h₁ _
    cases l₂ with
    | nil => rfl
    | cons b bs => simp [lexLt] at h₁
  | cons a as ih =>
    intro l₂ h₁ h₂
    cases l₂ with
    | nil => simp [lexLt] at h₂
    | cons b bs =>
      by_cases hab : a < b
      · simp [lexLt, hab] at h₁
      · by_cases hba : b < a
        · simp [lexLt, hba] at h₂
        · have habeq : a = b := le_antisymm (le_of_not_lt hba) (le_of_not_lt hab)
          subst habeq
          have h₁' : lexLt as bs = false := by simpa [lexLt, lt_irrefl] using h₁
          have h₂' : lexLt bs as = false := by simpa [lexLt, lt_irrefl] using h₂
          rw [ih h₁' h₂']

lemma strRel_iff {a b : String} : strRel a b ↔ lexLt b.data a.data = false := by
  simp [strRel, pyStrLe, pyStrLt]

instance : IsTotal String strRel := by
  constructor
  intro a b
  by_cases h : lexLt b.data a.data = true
  · right
    rw [strRel_iff]
    exact lexLt_asymm h
  · left
    rw [strRel_iff]
    exact Bool.not_eq_true _ ▸ h

instance : IsTrans String strRel := by
  constructor
  intro a b c hab hbc
  rw [strRel_iff] at hab hbc ⊢
  by_cases hca : lexLt c.data a.data = true
  · by_cases hlt : lexLt a.data b.data = true
    · exact absurd (lexLt_trans hca hlt) (by rw [hbc]; simp)
    · have : a.data = b.data :=
        lexLt_connex (Bool.not_eq_true _ ▸ hlt) hab
      rw [← this] at hbc
      exact absurd hca (by rw [hbc]; simp)
  · exact Bool.not_eq_true _ ▸ hca

/-- `LabelEncoder().fit_transform(values)`: the classes are the distinct
values in sorted (code-point) order, and each value is replaced by the
position of its class. -/
def labelEncoderFitTransform (xs : List String) : List Nat :=
  let classes := List.insertionSort strRel xs.dedup
  xs.map (fun x => List.indexOf x classes)

/-- In a strictly sorted duplicate-free list, the position of a member is
the number of elements strictly below it. -/
lemma sorted_nodup_indexOf_eq_countP {l : List String}
    (hs : l.Sorted strRel) (hn : l.Nodup) {x : String} (hx : x ∈ l) :
    List.indexOf x l = l.countP (fun v => pyStrLt v x) := by
  induction l with
  | nil => cases hx
  | cons y ys ih =>
    rw [List.sorted_cons] at hs
    rw [List.nodup_cons] at hn
    rw [List.countP_cons]
    by_cases hxy : x = y
    · subst hxy
      rw [List.indexOf_cons_self]
      have hyy : pyStrLt x x = false := lexLt_irrefl x.data
      have hz : ys.countP (fun v => pyStrLt v x) = 0 := by
        rw [List.countP_eq_zero]
        intro z hz
        have hrel := hs.1 z hz
        rw [strRel_iff] at hrel
        simpa using hrel
      simp [hyy, hz]
    · have hxys : x ∈ ys := by
        rcases List.mem_cons.mp hx with h | h
        · exact absurd h hxy
        · exact h
      rw [List.indexOf_cons_ne ys (fun h => hxy h.symm)]
      have hyx : pyStrLt y x = true := by
        have hrel := hs.1 x hxys
        rw [strRel_iff] at hrel
        by_cases hlt : lexLt y.data x.data = true
        · exact hlt
        · exact absurd (string_data_ext
            (lexLt_connex (Bool.not_eq_true _ ▸ hlt) hrel)).symm hxy
      rw [ih hs.2 hn.2 hxys, hyx]
      simp [Nat.succ_eq_add_one]

/-! ### Claim C1 -/

/-- The distinct values of a column in first-seen (encounter) order —
the code-assignment order the claim asserts. -/
def firstSeenDistinct (l : List String) : List String :=
  l.foldl (fun acc x => if x ∈ acc then acc else acc ++ [x]) []

/-- C1 (counterexample): on the column `["b", "a"]` the claim's
first-seen-order assignment would give codes `[0, 1]`, but
`LabelEncoder.fit_transform` sorts the classes and returns `[1, 0]`:
codes are assigned in sorted order, not encounter order. -/
theorem C1_counterexample :
    labelEncoderFitTransform ["b", "a"] = [1, 0] ∧
    ["b", "a"].map
      (fun x => List.indexOf x (firstSeenDistinct ["b", "a"])) = [0, 1] ∧
    labelEncoderFitTransform ["b", "a"] ≠
      ["b", "a"].map
        (fun x => List.indexOf x (firstSeenDistinct ["b", "a"])) := by
  refine ⟨by decide, by decide, by decide⟩

/-- C1 (amended): for every column, label encoding replaces each value
with the number of distinct column values strictly below it in code-point
order — i.e. codes are assigned by sorted order of the distinct values,
not by first-seen order — and the codes form the contiguous range
`0..d-1` for `d` distinct values: every code is `< d` and every
`k < d` is the code of some cell. -/
theorem C1_amended (xs : List String) :
    labelEncoderFitTransform xs
      = xs.map (fun x => xs.dedup.countP (fun v => pyStrLt v x)) ∧
    (∀ c ∈ labelEncoderFitTransform xs, c < xs.dedup.length) ∧
    (∀ k, k < xs.dedup.length → k ∈ labelEncoderFitTransform xs) := by
  have hperm : (List.insertionSort strRel xs.dedup).Perm xs.dedup :=
    List.perm_insertionSort _ _
  have hnd : (List.insertionSort strRel xs.dedup).Nodup :=
    hperm.nodup_iff.mpr (List.nodup_dedup xs)
  have hsort : (List.insertionSort strRel xs.dedup).Sorted strRel :=
    List.sorted_insertionSort strRel xs.dedup
  have hlen : (List.insertionSort strRel xs.dedup).length = xs.dedup.length :=
    hperm.length_eq
  refine ⟨?_, ?_, ?_⟩
  · apply List.map_congr_left
    intro x hx
    have hx' : x ∈ List.insertionSort strRel xs.dedup :=
      hperm.mem_iff.mpr (List.mem_dedup.mpr hx)
    rw [sorted_nodup_indexOf_eq_countP hsort hnd hx']
    exact hperm.countP_eq _
  · intro c hc
    rw [labelEncoderFitTransform, List.mem_map] at hc
    obtain ⟨x, hx, rfl⟩ := hc
    have hx' : x ∈ List.insertionSort strRel xs.dedup :=
      hperm.mem_iff.mpr (List.mem_dedup.mpr hx)
    rw [← hlen]
    exact List.indexOf_lt_length.mpr hx'
  · intro k hk
    rw [← hlen] at hk
    have hv := List.get_mem (List.insertionSort strRel xs.dedup) k hk
    have hvx : (List.insertionSort strRel xs.dedup).get ⟨k, hk⟩ ∈ xs :=
      List.mem_dedup.mp (hperm.mem_iff.mp hv)
    rw [labelEncoderFitTransform, List.mem_map]
    exact ⟨_, hvx, List.get_indexOf hnd ⟨k, hk⟩⟩

/-- C1 (witness): the amended theorem at the concrete column
`["b", "a", "b"]` (two distinct values): code 0 occurs. -/
theorem C1_witness : 0 ∈ labelEncoderFitTransform ["b", "a", "b"] :=
  (C1_amended ["b", "a", "b"]).2.2 0 (by decide)

/-! ### Binary encoding (src/processing.py lines 481-496)

`_apply_binary_encoding` label-encodes the column, computes
`n_bits = len(bin(max_val)[2:])`, emits one column `col_bit_i` holding
`(x >> i) & 1` for each `i < n_bits`, and drops the original column. -/

/-- `len(bin(m)[2:])`: the number of binary digits Python prints for `m`
(`bin(0)` is `'0b0'`, one digit). -/
def pyBinDigits (m : Nat) : Nat := if m = 0 then 1 else m.size

/-- Python `max(l)` for a list of naturals (the source only applies it to
non-empty lists, where this fold agrees with Python). -/
def pyMax (l : List Nat) : Nat := l.foldr max 0

/-- `_apply_binary_encoding` restricted to one selected column `c` with
values `xs`: the emitted bit-columns, in order `i = 0, 1, ...`
(`(x >> i) & 1` is `x / 2^i % 2`); the original column is dropped. -/
def binaryEncodeCol (c : String) (xs : List String) : List (String × List Nat) :=
  let encoded := labelEncoderFitTransform xs
  let maxVal := pyMax encoded
  let nBits := pyBinDigits maxVal
  (List.range nBits).map
    (fun i => (c ++ "_bit_" ++ toString i, encoded.map (fun x => x / 2 ^ i % 2)))

/-- `Nat.size` is the ceiling log of the successor:
`size m = ⌈log2 (m+1)⌉`. -/
lemma size_eq_clog_succ (m : Nat) : m.size = Nat.clog 2 (m + 1) := by
  apply le_antisymm
  · apply Nat.size_le.mpr
    have h := (Nat.le_pow_iff_clog_le (by norm_num)).mpr
      (le_refl (Nat.clog 2 (m + 1)))
    omega
  · exact (Nat.le_pow_iff_clog_le (by norm_num)).mp (Nat.lt_size_self m)

/-- Every member of a list is at most its `pyMax`. -/
lemma le_pyMax {l : List Nat} {x : Nat} (h : x ∈ l) : x ≤ pyMax l := by
  induction l with
  | nil => cases h
  | cons y ys ih =>
    rcases List.mem_cons.mp h with rfl | h'
    · exact le_max_left _ _
    · exact le_trans (ih h') (le_max_right _ _)

/-- The little-endian binary digits of `x`, truncated to `k` bits, sum to
`x mod 2^k`. -/
lemma bits_sum (k x : Nat) :
    ((List.range k).map (fun i => x / 2 ^ i % 2 * 2 ^ i)).sum = x % 2 ^ k := by
  induction k with
  | zero => simp [Nat.mod_one]
  | succ k ih =>
    rw [List.range_succ, List.map_append, List.sum_append, ih]
    have h2 : (2 : Nat) ^ (k + 1) = 2 ^ k * 2 := by ring
    rw [h2, Nat.mod_mul]
    simp [Nat.mul_comm]

/-! ### Claim C5 -/

/-- C5 (counterexample): on a selected column with a single distinct value
(`["a", "a"]`, so `max_code = 0`) the code emits one bit-column while
`ceil(log2(max_code + 1)) = ceil(log2 1) = 0`: the claimed bit count is
wrong for single-valued columns. -/
theorem C5_counterexample :
    (binaryEncodeCol "A" ["a", "a"]).length = 1 ∧
    Nat.clog 2 (pyMax (labelEncoderFitTransform ["a", "a"]) + 1) = 0 ∧
    (binaryEncodeCol "A" ["a", "a"]).length ≠
      Nat.clog 2 (pyMax (labelEncoderFitTransform ["a", "a"]) + 1) := by
  have h1 : (binaryEncodeCol "A" ["a", "a"]).length = 1 := by decide
  have h2 : pyMax (labelEncoderFitTransform ["a", "a"]) = 0 := by decide
  have h3 : Nat.clog 2 (pyMax (labelEncoderFitTransform ["a", "a"]) + 1) = 0 := by
    rw [h2]
    exact Nat.clog_one_right 2
  exact ⟨h1, h3, by omega⟩

/-- C5 (amended): for every non-empty selected column, binary encoding
label-encodes it and emits exactly `max 1 (ceil(log2(max_code + 1)))`
bit-columns — one more than the claim says when `max_code = 0`, and
exactly the claimed count otherwise — where `max_code` is the maximum
code actually present; each bit-column has one entry per row, and the
emitted bits represent each code in binary: the bits of a row, weighted
by `2^i`, sum back to that row's code. -/
theorem C5_amended (c : String) (xs : List String) (hne : xs ≠ []) :
    (binaryEncodeCol c xs).length
      = max 1 (Nat.clog 2 (pyMax (labelEncoderFitTransform xs) + 1)) ∧
    (∀ p ∈ binaryEncodeCol c xs, p.2.length = xs.length) ∧
    (∀ x ∈ labelEncoderFitTransform xs,
      ((List.range (pyBinDigits (pyMax (labelEncoderFitTransform xs)))).map
        (fun i => x / 2 ^ i % 2 * 2 ^ i)).sum = x) := by
  refine ⟨?_, ?_, ?_⟩
  · show ((List.range _).map _).length = _
    rw [List.length_map, List.length_range]
    rw [pyBinDigits, size_eq_clog_succ]
    by_cases h : pyMax (labelEncoderFitTransform xs) = 0
    · rw [if_pos h, h]
      rw [Nat.clog_one_right]
      simp
    · rw [if_neg h]
      have h1 : 1 ≤ Nat.clog 2 (pyMax (labelEncoderFitTransform xs) + 1) := by
        rw [← size_eq_clog_succ]
        rcases Nat.eq_zero_or_pos (pyMax (labelEncoderFitTransform xs)).size
          with hz | hp
        · exact absurd (Nat.size_eq_zero.mp hz) h
        · exact hp
      omega
  · intro p hp
    rw [binaryEncodeCol, List.mem_map] at hp
    obtain ⟨i, _, rfl⟩ := hp
    simp [List.length_map, labelEncoderFitTransform]
  · intro x hx
    rw [bits_sum]
    apply Nat.mod_eq_of_lt
    have h1 : x ≤ pyMax (labelEncoderFitTransform xs) := le_pyMax hx
    have h2 : pyMax (labelEncoderFitTransform xs)
        < 2 ^ (pyMax (labelEncoderFitTransform xs)).size :=
      Nat.lt_size_self _
    have h3 : (pyMax (labelEncoderFitTransform xs)).size
        ≤ pyBinDigits (pyMax (labelEncoderFitTransform xs)) := by
      rw [pyBinDigits]
      split
      · simp [Nat.size_eq_zero.mpr ‹_›]
      · exact le_refl _
    calc x ≤ pyMax (labelEncoderFitTransform xs) := h1
      _ < 2 ^ (pyMax (labelEncoderFitTransform xs)).size := h2
      _ ≤ 2 ^ pyBinDigits (pyMax (labelEncoderFitTransform xs)) :=
        Nat.pow_le_pow_right (by norm_num) h3

/-- C5 (witness): the amended bit count evaluated on the three-valued
column `["b", "a", "c"]` (codes `0..2`, two bit-columns). -/
theorem C5_witness :
    (binaryEncodeCol "A" ["b", "a", "c"]).length
      = max 1 (Nat.clog 2 (pyMax (labelEncoderFitTransform ["b", "a", "c"]) + 1)) :=
  (C5_amended "A" ["b", "a", "c"] (by decide)).1

/-! ### Fill-missing (src/processing.py lines 380-397)

For a numeric column the fill value is `df[col].mean()` or
`df[col].median()`. pandas reductions skip missing values and return the
float `NaN` when no value remains. The source then tests
`if fill_value is not None:` — a float, `NaN` included, is never Python's
`None`, so the success branch always runs: `fillna(fill_value)` and the
success message. The error branch (line 397) is unreachable for
mean/median. A numeric column is `List (Option ℚ)` here (`none` = `NaN`). -/

/-- A Python float as produced by a pandas reduction: a number or `NaN`. -/
inductive PyFloat where
  | nan : PyFloat
  | val : ℚ → PyFloat
deriving DecidableEq, Repr

/-- `fv is None` for a float `fv`: always false — a float object, `NaN`
included, is not the `None` object. -/
def pyFloatIsNone (_ : PyFloat) : Bool := false

/-- pandas `Series.mean()` (default `skipna=True`): the arithmetic mean
of the non-missing values, `NaN` when there are none. -/
def seriesMean (cells : List (Option ℚ)) : PyFloat :=
  let xs := cells.filterMap id
  if xs.length = 0 then PyFloat.nan
  else PyFloat.val (xs.sum / (xs.length : ℚ))

/-- pandas `Series.median()` (default `skipna=True`): the middle of the
sorted non-missing values (mean of the two middles for an even count),
`NaN` when there are none. -/
def seriesMedian (cells : List (Option ℚ)) : PyFloat :=
  let xs := List.insertionSort (· ≤ ·) (cells.filterMap id)
  if xs.length = 0 then PyFloat.nan
  else if xs.length % 2 = 1 then PyFloat.val (xs.getD (xs.length / 2) 0)
  else PyFloat.val
    ((xs.getD (xs.length / 2 - 1) 0 + xs.getD (xs.length / 2) 0) / 2)

/-- `Series.fillna(v)`: missing cells become `v`; filling with the float
`NaN` writes `NaN` into the missing cells, leaving the column as it was. -/
def seriesFillna (cells : List (Option ℚ)) (v : PyFloat) : List (Option ℚ) :=
  match v with
  | PyFloat.nan => cells
  | PyFloat.val q => cells.map (fun c => some (c.getD q))

/-- The fill statistic chosen in the UI for a numeric column. -/
inductive FillMethod where
  | mean : FillMethod
  | median : FillMethod
deriving DecidableEq, Repr

/-- Result of the fill action: the column afterwards, and whether the
success message (`true`, line 395) or the error message (`false`,
line 397) was shown. -/
structure FillOutcome where
  cells : List (Option ℚ)
  successMsg : Bool
deriving DecidableEq, Repr

/-- The fill-missing action of `_handle_missing_data` on a numeric column
with method mean or median (lines 380-397). -/
def fillMissingNumeric (m : FillMethod) (cells : List (Option ℚ)) : FillOutcome :=
  let fv : PyFloat :=
    match m with
    | FillMethod.mean => seriesMean cells
    | FillMethod.median => seriesMedian cells
  if pyFloatIsNone fv then { cells := cells, successMsg := false }
  else { cells := seriesFillna cells fv, successMsg := true }

/-! ### Claim C4 -/

/-- C4 (code evaluation at the failing input): on a numeric column whose
cells are all missing, the mean/median statistic is undefined, yet the
fill operation does not fail: `mean()` returns the float `NaN`, which
passes the `is not None` test, `fillna(NaN)` leaves the column unchanged,
and the success message is shown. The error branch is unreachable for
every input. The claim (an `OperationError` surfaced as a user-visible
error message) describes the intended behavior of line 397, which the
`is not None` test never reaches. -/
theorem C4_code_eval :
    fillMissingNumeric FillMethod.mean [none, none]
      = { cells := [none, none], successMsg := true } ∧
    fillMissingNumeric FillMethod.median [none, none]
      = { cells := [none, none], successMsg := true } ∧
    (∀ (m : FillMethod) (cells : List (Option ℚ)),
      (fillMissingNumeric m cells).successMsg = true) := by
  refine ⟨by decide, by decide, ?_⟩
  intro m cells
  cases m <;> rfl

/-! ### Column classifier (src/utils.py lines 97-141)

`get_numeric_columns` returns the names of the `np.number`-dtype columns.
`get_categorical_columns` takes the `object`/`category`-dtype columns and
keeps those whose sample of the first `min(100, n)` non-missing values is
less than 70% parseable as `float`. Python's `float(...)` literal grammar
is modelled by `pyFloatParsable` (optional sign, digits with an optional
decimal point, optional exponent, `inf`/`infinity`/`nan` in any case;
underscore digit separators are not modelled). The float comparison
`count / total < 0.7` agrees with the exact rational comparison
`10 * count < 7 * total` for every `total ≤ 100`, since any ratio of
naturals with denominator at most 100 differs from 0.7 by at least
1/1000, far above double-precision rounding. -/

/-- Lower-case every character, like Python `s.lower()` on ASCII. -/
def lowerChars (l : List Char) : List Char := l.map Char.toLower

/-- Drop one leading `+`/`-` sign if present. -/
def dropSign : List Char → List Char
  | [] => []
  | c :: rest => if c = '+' ∨ c = '-' then rest else c :: rest

/-- The digits-and-point part of a float literal: `digits`, `digits.`,
`.digits` or `digits.digits`, with at least one digit. -/
def mantissaOk (l : List Char) : Bool :=
  match splitOnChar '.' l with
  | [a] => decide (a ≠ []) && a.all Char.isDigit
  | [a, b] => (decide (a ≠ []) || decide (b ≠ [])) &&
      a.all Char.isDigit && b.all Char.isDigit
  | _ => false

/-- The exponent part of a float literal: optional sign, then digits. -/
def expPartOk (l : List Char) : Bool :=
  let l' := dropSign l
  decide (l' ≠ []) && l'.all Char.isDigit

/-- Model of Python `float(s)` succeeding on the string `s`. -/
def pyFloatParsable (s : String) : Bool :=
  let t := lowerChars (dropSign (stripChars s.data))
  (t = "inf".data || t = "infinity".data || t = "nan".data) ||
  (match splitOnChar 'e' t with
   | [m] => mantissaOk m
   | [m, ex] => mantissaOk m && expPartOk ex
   | _ => false)

/-- Whether a cell is the missing marker. -/
def cellIsNA : Cell → Bool
  | Cell.na => true
  | _ => false

/-- pandas `Series.dropna()`: the non-missing cells, in order. -/
def seriesDropna (cells : List Cell) : List Cell :=
  cells.filter (fun c => !cellIsNA c)

/-- Whether `float(str(val).strip())` succeeds on a cell of an
object-dtype column: always for a numeric value, per the literal grammar
for text. -/
def cellParsesFloat : Cell → Bool
  | Cell.na => false
  | Cell.num _ => true
  | Cell.str s => pyFloatParsable s

/-- The per-column test of `get_categorical_columns`: at least one
non-missing value, and strictly less than 70% of the first
`min(100, n)` non-missing values parse as a number. -/
def trulyCategorical (cells : List Cell) : Bool :=
  let sample := seriesDropna cells
  if sample.length = 0 then false
  else
    let total := min 100 sample.length
    let conv := (sample.take total).countP cellParsesFloat
    decide (10 * conv < 7 * total)

/-- `get_numeric_columns(df)`: names of the `np.number`-dtype columns
(empty for an empty frame). -/
def get_numeric_columns (t : Table) : List String :=
  if t.isEmpty then []
  else (t.cols.filter (fun p => p.2.dtype = Dtype.numericD)).map Prod.fst

/-- `get_categorical_columns(df)`: names of the `object`/`category`-dtype
columns that pass the `trulyCategorical` sample test (empty for an empty
frame). -/
def get_categorical_columns (t : Table) : List String :=
  if t.isEmpty then []
  else (((t.cols.filter
      (fun p => p.2.dtype = Dtype.objectD ∨ p.2.dtype = Dtype.categoryD)).filter
    (fun p => trulyCategorical p.2.cells)).map Prod.fst)

/-- With duplicate-free column names, a name determines its column. -/
lemma nodup_keys_eq {l : List (String × Col)}
    (hnd : (l.map Prod.fst).Nodup) {n : String} {c₁ c₂ : Col}
    (h₁ : (n, c₁) ∈ l) (h₂ : (n, c₂) ∈ l) : c₁ = c₂ := by
  induction l with
  | nil => cases h₁
  | cons p ps ih =>
    rw [List.map_cons, List.nodup_cons] at hnd
    rcases List.mem_cons.mp h₁ with rfl | h₁'
    · rcases List.mem_cons.mp h₂ with h | h₂'
      · exact (congrArg Prod.snd h).symm
      · exact absurd (List.mem_map.mpr ⟨_, h₂', rfl⟩) hnd.1
    · rcases List.mem_cons.mp h₂ with rfl | h₂'
      · exact absurd (List.mem_map.mpr ⟨_, h₁', rfl⟩) hnd.1
      · exact ih hnd.2 h₁' h₂'

/-! ### Claim C6 -/

/-- C6: a column of a non-empty table (with duplicate-free column names)
is reported categorical if and only if it has `object`/`category` dtype,
has at least one non-missing value, and strictly less than 70% of the
first `min(100, n)` non-missing values parse as a floating-point number;
columns with zero non-missing values are excluded (they fail the second
conjunct). -/
theorem C6_classifier (t : Table) (name : String) (col : Col)
    (hmem : (name, col) ∈ t.cols) (hnd : (t.cols.map Prod.fst).Nodup)
    (hne : t.index ≠ []) :
    name ∈ get_categorical_columns t ↔
      ((col.dtype = Dtype.objectD ∨ col.dtype = Dtype.categoryD) ∧
        seriesDropna col.cells ≠ [] ∧
        10 * ((seriesDropna col.cells).take
            (min 100 (seriesDropna col.cells).length)).countP cellParsesFloat
          < 7 * min 100 (seriesDropna col.cells).length) := by
  have hcols : t.cols ≠ [] := fun h => by simp [h] at hmem
  have hempty : t.isEmpty = false := by
    rw [Table.isEmpty]
    simp [List.isEmpty_iff, hne, hcols]
  have htc : ∀ c : Col, trulyCategorical c.cells = true ↔
      (seriesDropna c.cells ≠ [] ∧
        10 * ((seriesDropna c.cells).take
            (min 100 (seriesDropna c.cells).length)).countP cellParsesFloat
          < 7 * min 100 (seriesDropna c.cells).length) := by
    intro c
    rw [trulyCategorical]
    by_cases h : (seriesDropna c.cells).length = 0
    · simp only [h, if_pos rfl]
      simp [List.length_eq_zero.mp h]
    · simp only [if_neg h]
      simp only [decide_eq_true_eq]
      constructor
      · intro hlt
        exact ⟨fun hc => h (by simp [hc]), hlt⟩
      · intro hconj
        exact hconj.2
  rw [get_categorical_columns, hempty]
  simp only [Bool.false_eq_true, if_false, List.mem_map, List.mem_filter]
  constructor
  · rintro ⟨p, ⟨⟨hp, hdt⟩, hcat⟩, rfl⟩
    have hcol : p.2 = col := nodup_keys_eq hnd (by rwa [← Prod.mk.eta (p := p)] at hp) hmem
    rw [hcol] at hdt hcat
    refine ⟨by simpa [decide_eq_true_eq] using hdt, ?_⟩
    exact (htc col).mp hcat
  · rintro ⟨hdt, hrest⟩
    refine ⟨(name, col), ⟨⟨hmem, ?_⟩, ?_⟩, rfl⟩
    · simpa [decide_eq_true_eq] using hdt
    · exact (htc col).mpr hrest

/-- C6 (witness): the classifier iff evaluated on a concrete one-column
table — a text column whose only value `x` does not parse as a number is
reported categorical. -/
theorem C6_witness :
    "B" ∈ get_categorical_columns
      ⟨[0], [("B", ⟨Dtype.objectD, [Cell.str "x", Cell.na]⟩)]⟩ :=
  (C6_classifier ⟨[0], [("B", ⟨Dtype.objectD, [Cell.str "x", Cell.na]⟩)]⟩
    "B" ⟨Dtype.objectD, [Cell.str "x", Cell.na]⟩
    (by decide) (by decide) (by decide)).mpr (by decide)

/-! ### Claim C10 -/

/-- C10: the numeric and categorical classifications are disjoint — with
duplicate-free column names, a column returned by `get_numeric_columns`
is never also returned by `get_categorical_columns`, because only
`object`/`category`-dtype columns are categorical candidates while only
`np.number`-dtype columns are numeric. -/
theorem C10_disjoint (t : Table) (name : String)
    (hnd : (t.cols.map Prod.fst).Nodup)
    (hnum : name ∈ get_numeric_columns t) :
    name ∉ get_categorical_columns t := by
  intro hcat
  rw [get_numeric_columns] at hnum
  rw [get_categorical_columns] at hcat
  by_cases hempty : t.isEmpty
  · simp [hempty] at hnum
  · rw [if_neg hempty] at hnum
    rw [if_neg hempty] at hcat
    rw [List.mem_map] at hnum hcat
    obtain ⟨⟨pn, pc⟩, hp, hpn⟩ := hnum
    obtain ⟨⟨qn, qc⟩, hq, hqn⟩ := hcat
    simp only at hpn hqn
    subst hpn
    subst hqn
    rw [List.mem_filter] at hp
    rw [List.mem_filter, List.mem_filter] at hq
    have hpd : pc.dtype = Dtype.numericD := by
      simpa [decide_eq_true_eq] using hp.2
    have hqd : qc.dtype = Dtype.objectD ∨ qc.dtype = Dtype.categoryD := by
      simpa [decide_eq_true_eq] using hq.1.2
    have hpq : pc = qc := nodup_keys_eq hnd hp.1 hq.1.1
    rw [← hpq, hpd] at hqd
    rcases hqd with h | h <;> cases h

/-- C10 (witness): disjointness applied to a concrete two-column table —
the numeric column `A` is not reported categorical. -/
theorem C10_witness :
    "A" ∉ get_categorical_columns
      ⟨[0], [("A", ⟨Dtype.numericD, [Cell.num 1]⟩),
             ("B", ⟨Dtype.objectD, [Cell.str "x"]⟩)]⟩ :=
  C10_disjoint _ "A" (by decide) (by decide)

/-! ### Session lifecycle (src/app.py)

`st.session_state` holds `original_data` and `current_data`. On upload
(lines 166-171) the parsed frame gets `reset_index(drop=True)` and fresh
copies are stored as both tables. Applying the processing tab (line 267)
replaces only `current_data` with the transformed frame. The reset button
(lines 211-217) replaces `current_data` with
`original_data.copy().reset_index(drop=True)`. -/

/-- `df.reset_index(drop=True)`: same columns, row labels re-sequenced to
the 0-based range. -/
def Table.resetIndex (t : Table) : Table :=
  { t with index := (List.range t.nRows).map Int.ofNat }

/-- The per-session state: the immutable upload snapshot and the working
table. -/
structure Session where
  original : Table
  current : Table
deriving DecidableEq, Repr

/-- Upload handling (app.py lines 166-171): re-index the parsed frame and
store copies as both `original` and `current`. -/
def uploadSession (df : Table) : Session :=
  { original := df.resetIndex, current := df.resetIndex }

/-- One applied transform operation (app.py line 267):
`current_data := render(current_data)`; `original_data` is not touched. -/
def applyTransformStep (s : Session) (f : Table → Table) : Session :=
  { s with current := f s.current }

/-- A sequence of applied transform operations. -/
def applyTransforms (s : Session) (fs : List (Table → Table)) : Session :=
  fs.foldl applyTransformStep s

/-- The reset button (app.py lines 211-217):
`current_data := original_data.copy().reset_index(drop=True)`. -/
def resetSession (s : Session) : Session :=
  { s with current := s.original.resetIndex }

/-- Transform application never changes `original`. -/
lemma applyTransforms_original (s : Session) (fs : List (Table → Table)) :
    (applyTransforms s fs).original = s.original := by
  induction fs generalizing s with
  | nil => rfl
  | cons f fs ih => exact ih _

/-- Re-indexing is idempotent. -/
lemma resetIndex_resetIndex (t : Table) :
    t.resetIndex.resetIndex = t.resetIndex := by
  simp [Table.resetIndex, Table.nRows]

/-! ### Claim C7 -/

/-- C7: in a session created by an upload, any sequence of applied
transform operations leaves the stored `original` table unchanged, and
the reset action afterwards sets `current` to exactly the stored
`original` (whose row identity is the 0-based index assigned at upload):
the original row/column content, values and 0-based labels are all
restored. -/
theorem C7_reset_restores (df : Table) (fs : List (Table → Table)) :
    (applyTransforms (uploadSession df) fs).original
      = (uploadSession df).original ∧
    (resetSession (applyTransforms (uploadSession df) fs)).current
      = (uploadSession df).original ∧
    (resetSession (applyTransforms (uploadSession df) fs)).current.cols
      = df.cols ∧
    (resetSession (applyTransforms (uploadSession df) fs)).current.index
      = (List.range df.nRows).map Int.ofNat := by
  have h1 := applyTransforms_original (uploadSession df) fs
  refine ⟨h1, ?_, ?_, ?_⟩
  · show (applyTransforms (uploadSession df) fs).original.resetIndex = _
    rw [h1]
    exact resetIndex_resetIndex df
  · show (applyTransforms (uploadSession df) fs).original.resetIndex.cols = _
    rw [h1]
    show df.resetIndex.resetIndex.cols = df.cols
    rw [resetIndex_resetIndex df]
    rfl
  · show (applyTransforms (uploadSession df) fs).original.resetIndex.index = _
    rw [h1]
    show df.resetIndex.resetIndex.index = _
    rw [resetIndex_resetIndex df]
    rfl

/-! ### One-hot encoding (src/processing.py lines 473-479)

`_apply_one_hot_encoding` runs, for each selected column:
`dummies = pd.get_dummies(df[col], prefix=col)`,
`df = pd.concat([df, dummies], axis=1)`, `df = df.drop(columns=[col])`.
`get_dummies` emits one 0/1 column per distinct non-missing value, named
`col_value`; rows whose cell is missing get 0 everywhere
(`dummy_na=False`). pandas orders the dummy columns by sorted value; the
order is modelled as first-seen order here, which permutes only the
emitted dummy block and affects none of the counted facts below. -/

/-- The distinct non-missing cells of a column, in first-seen order. -/
def distinctNonNA (cells : List Cell) : List Cell :=
  (seriesDropna cells).foldl (fun acc x => if x ∈ acc then acc else acc ++ [x]) []

/-- The text pandas uses for a level in a dummy-column name. -/
def cellText : Cell → String
  | Cell.na => "nan"
  | Cell.num q => toString q
  | Cell.str s => s

/-- `pd.get_dummies(df[col], prefix=col)`: one indicator column per
distinct non-missing value (`1` where the cell equals the value, else
`0`; the `boolD` dtype stands for the boolean dummies pandas emits). -/
def getDummies (c : String) (cells : List Cell) : List (String × Col) :=
  (distinctNonNA cells).map
    (fun v => (c ++ "_" ++ cellText v,
      ⟨Dtype.boolD, cells.map (fun x => Cell.num (if x = v then 1 else 0))⟩))

/-- `df[c]`: the first column named `c`. -/
def Table.getCol? (t : Table) (c : String) : Option Col :=
  (t.cols.find? (fun p => p.1 = c)).map Prod.snd

/-- `_apply_one_hot_encoding` for one selected column `c` (selected
columns always exist in the frame, since the UI offers only
`get_categorical_columns(df)`): append the dummies after the existing
columns, then drop every column named `c`. -/
def applyOneHotCol (t : Table) (c : String) : Table :=
  match t.getCol? c with
  | none => t
  | some col =>
    { index := t.index,
      cols := t.cols.filter (fun p => p.1 ≠ c) ++ getDummies c col.cells }

/-- With duplicate-free names, `find?` locates exactly the known column. -/
lemma find?_key_eq {l : List (String × Col)}
    (hnd : (l.map Prod.fst).Nodup) {c : String} {col : Col}
    (hmem : (c, col) ∈ l) :
    l.find? (fun p => p.1 = c) = some (c, col) := by
  induction l with
  | nil => cases hmem
  | cons p ps ih =>
    rw [List.map_cons, List.nodup_cons] at hnd
    rcases List.mem_cons.mp hmem with rfl | hmem'
    · exact List.find?_cons_of_pos ps (by simp)
    · have hpc : ¬ (p.1 = c) := by
        intro h
        exact hnd.1 (h ▸ List.mem_map.mpr ⟨_, hmem', rfl⟩)
      rw [List.find?_cons_of_neg ps (by simpa using hpc)]
      exact ih hnd.2 hmem'

/-- Dropping the unique column named `c` removes exactly one column. -/
lemma length_filter_ne_key {l : List (String × Col)}
    (hnd : (l.map Prod.fst).Nodup) {c : String} {col : Col}
    (hmem : (c, col) ∈ l) :
    (l.filter (fun p => p.1 ≠ c)).length = l.length - 1 := by
  induction l with
  | nil => cases hmem
  | cons p ps ih =>
    rw [List.map_cons, List.nodup_cons] at hnd
    rcases List.mem_cons.mp hmem with rfl | hmem'
    · rw [List.filter_cons_of_neg (by simp)]
      have hall : ps.filter (fun p => p.1 ≠ c) = ps := by
        rw [List.filter_eq_self]
        intro a ha
        have hne : a.1 ≠ c := fun h => hnd.1 (h ▸ List.mem_map.mpr ⟨_, ha, rfl⟩)
        simpa using hne
      rw [hall]
      simp
    · have hpc : p.1 ≠ c := by
        intro h
        exact hnd.1 (h ▸ List.mem_map.mpr ⟨_, hmem', rfl⟩)
      rw [List.filter_cons_of_pos (by simpa using hpc)]
      have hps : ps.length ≥ 1 := List.length_pos.mpr (by
        intro h
        rw [h] at hmem'
        cases hmem')
      simp only [List.length_cons]
      rw [ih hnd.2 hmem']
      omega

/-! ### Claim C8 -/

/-- C8: one-hot encoding a column with `d` distinct non-missing values
replaces it by exactly `d` indicator columns — the column count becomes
`old - 1 + d` — no surviving column keeps the encoded name, the row index
is untouched, and every added column is binary (cells 0/1) with one cell
per row of the encoded column. -/
theorem C8_one_hot (t : Table) (c : String) (col : Col)
    (hmem : (c, col) ∈ t.cols) (hnd : (t.cols.map Prod.fst).Nodup) :
    (applyOneHotCol t c).cols.length
      = t.cols.length - 1 + (distinctNonNA col.cells).length ∧
    (∀ p ∈ (applyOneHotCol t c).cols, p.1 ≠ c) ∧
    (applyOneHotCol t c).index = t.index ∧
    (∀ p ∈ getDummies c col.cells, p.2.cells.length = col.cells.length ∧
      ∀ x ∈ p.2.cells, x = Cell.num 0 ∨ x = Cell.num 1) := by
  have hfind : t.getCol? c = some col := by
    rw [Table.getCol?, find?_key_eq hnd hmem]
    rfl
  have happ : applyOneHotCol t c =
      { index := t.index,
        cols := t.cols.filter (fun p => p.1 ≠ c) ++ getDummies c col.cells } := by
    rw [applyOneHotCol, hfind]
  refine ⟨?_, ?_, ?_, ?_⟩
  · rw [happ]
    show (t.cols.filter (fun p => p.1 ≠ c) ++ getDummies c col.cells).length = _
    rw [List.length_append, length_filter_ne_key hnd hmem]
    rw [getDummies, List.length_map]
  · intro p hp
    rw [happ] at hp
    rcases List.mem_append.mp hp with h | h
    · simpa [decide_eq_true_eq] using (List.mem_filter.mp h).2
    · rw [getDummies, List.mem_map] at h
      obtain ⟨v, _, rfl⟩ := h
      intro hname
      have hlen := congrArg String.length hname
      rw [String.length_append, String.length_append] at hlen
      have h1 : ("_" : String).length = 1 := rfl
      omega
  · rw [happ]
  · intro p hp
    rw [getDummies, List.mem_map] at hp
    obtain ⟨v, _, rfl⟩ := hp
    constructor
    · exact List.length_map _ _
    · intro x hx
      rw [List.mem_map] at hx
      obtain ⟨y, _, rfl⟩ := hx
      by_cases h : y = v
      · right
        rw [if_pos h]
      · left
        rw [if_neg h]

/-- C8 (witness): the spec's own example — one-hot of the two-valued
column `B` of a 4-row, 2-column table gives 3 columns. -/
theorem C8_witness :
    (applyOneHotCol
      ⟨[0, 1, 2, 3],
       [("A", ⟨Dtype.numericD, [Cell.num 1, Cell.num 2, Cell.na, Cell.num 4]⟩),
        ("B", ⟨Dtype.objectD,
          [Cell.str "x", Cell.str "y", Cell.str "x", Cell.str "y"]⟩)]⟩
      "B").cols.length = 3 := by
  rw [(C8_one_hot _ "B"
    ⟨Dtype.objectD, [Cell.str "x", Cell.str "y", Cell.str "x", Cell.str "y"]⟩
    (by decide) (by decide)).1]
  decide

/-! ### Strongest correlations (src/statisticss.py lines 182-213)

`_show_strongest_correlations` walks the strict upper triangle of the
correlation matrix (`for i`, `for j in range(i+1, n)`), skips entries
that are NaN (`pd.isna`), collects records with the pair of column names,
the coefficient and its absolute value (`Siła`), and displays
`correlations_df.sort_values('Siła', ascending=False)`. A correlation
matrix entry is `Option ℚ` (`none` = NaN, undefined coefficient). pandas'
`sort_values(ascending=False)` computes an ascending argsort of the key
and reverses the indexer; numpy's quicksort runs a stable insertion sort
on arrays shorter than 16 elements, so the ascending phase is modelled by
a stable insertion sort and the descending order by `List.reverse`. -/

/-- One record of the strongest-correlations list. -/
structure CorrEntry where
  col1 : String
  col2 : String
  corr : ℚ
deriving DecidableEq, Repr

/-- Entry `(i, j)` of the correlation matrix. -/
def matEntry (m : List (List (Option ℚ))) (i j : Nat) : Option ℚ :=
  (m.getD i []).getD j none

/-- The collection loop: every strict-upper-triangle pair with a defined
coefficient, in enumeration order. -/
def corrPairs (names : List String) (m : List (List (Option ℚ))) :
    List CorrEntry :=
  (List.range names.length).flatMap
    (fun i => (List.range' (i + 1) (names.length - (i + 1))).filterMap
      (fun j => (matEntry m i j).map
        (fun v => ⟨names.getD i "", names.getD j "", v⟩)))

/-- Ascending order of records by strength (`Siła` = `|corr|`). -/
def strengthLe (p q : CorrEntry) : Prop := |p.corr| ≤ |q.corr|

instance : DecidableRel strengthLe :=
  fun p q => inferInstanceAs (Decidable (|p.corr| ≤ |q.corr|))

instance : IsTotal CorrEntry strengthLe := ⟨fun _ _ => le_total _ _⟩

instance : IsTrans CorrEntry strengthLe := ⟨fun _ _ _ => le_trans⟩

/-- `sort_values('Siła', ascending=False)` as pandas executes it on these
small frames: reverse of a stable ascending sort by strength. -/
def sortValuesSilaDesc (l : List CorrEntry) : List CorrEntry :=
  (List.insertionSort strengthLe l).reverse

/-- The displayed strongest-correlations ranking. -/
def strongestCorrelations (names : List String)
    (m : List (List (Option ℚ))) : List CorrEntry :=
  sortValuesSilaDesc (corrPairs names m)

/-! ### Claim C9 -/

/-- C9 (counterexample): with columns `A, B, C` and coefficients
`corr(A,B) = 1`, `corr(A,C) = 2`, `corr(B,C) = 1` (scaled for
concreteness), the two tied pairs come out as `(B,C)` before `(A,B)` —
pandas reverses the ascending argsort, so ties appear in reverse
enumeration order, not in original column order as the claim states. -/
theorem C9_counterexample :
    strongestCorrelations ["A", "B", "C"]
        [[some 1, some 1, some 2], [some 1, some 1, some 1],
         [some 2, some 1, some 1]]
      = [⟨"A", "C", 2⟩, ⟨"B", "C", 1⟩, ⟨"A", "B", 1⟩] ∧
    strongestCorrelations ["A", "B", "C"]
        [[some 1, some 1, some 2], [some 1, some 1, some 1],
         [some 2, some 1, some 1]]
      ≠ [⟨"A", "C", 2⟩, ⟨"A", "B", 1⟩, ⟨"B", "C", 1⟩] := by
  refine ⟨by decide, by decide⟩

/-- C9 (amended): the ranking contains exactly the strict-upper-triangle
pairs with a defined coefficient — the diagonal, the lower triangle
(each unordered pair is listed once) and undefined entries are excluded —
and it is sorted by absolute coefficient descending; the relative order
of tied pairs is the reverse of enumeration order (from the reversed
stable ascending sort), not original column order. -/
theorem C9_amended (names : List String) (m : List (List (Option ℚ))) :
    (strongestCorrelations names m).Perm (corrPairs names m) ∧
    List.Sorted (fun p q => |q.corr| ≤ |p.corr|)
      (strongestCorrelations names m) ∧
    (∀ e ∈ corrPairs names m, ∃ i j, i < j ∧ j < names.length ∧
      matEntry m i j = some e.corr ∧
      e.col1 = names.getD i "" ∧ e.col2 = names.getD j "") := by
  refine ⟨?_, ?_, ?_⟩
  · exact (List.reverse_perm _).trans (List.perm_insertionSort _ _)
  · show List.Sorted _ (List.insertionSort strengthLe _).reverse
    rw [List.Sorted, List.pairwise_reverse]
    exact List.sorted_insertionSort strengthLe _
  · intro e he
    rw [corrPairs, List.mem_flatMap] at he
    obtain ⟨i, hi, he⟩ := he
    rw [List.mem_filterMap] at he
    obtain ⟨j, hj, he⟩ := he
    rw [List.mem_range] at hi
    rw [List.mem_range'] at hj
    obtain ⟨k, hk, rfl⟩ := hj
    rw [Option.map_eq_some'] at he
    obtain ⟨v, hv, rfl⟩ := he
    exact ⟨i, i + 1 + 1 * k, by omega, by omega, by simpa using hv, rfl, rfl⟩

/-- C9 (witness): the amended pair characterization applied to a concrete
2-column matrix whose single off-diagonal coefficient is defined. -/
theorem C9_witness :
    ∃ i j, i < j ∧ j < 2 ∧
      matEntry [[some 1, some 2], [some 2, some 1]] i j
        = some (CorrEntry.corr ⟨"A", "B", 2⟩) ∧
      CorrEntry.col1 ⟨"A", "B", 2⟩ = ["A", "B"].getD i "" ∧
      CorrEntry.col2 ⟨"A", "B", 2⟩ = ["A", "B"].getD j "" :=
  (C9_amended ["A", "B"] [[some 1, some 2], [some 2, some 1]]).2.2
    ⟨"A", "B", 2⟩ (by decide)
